import Mathlib

/-
  Verification of the dependency-injection runtime in src/lib/Injector.js
  ("bolus").  The resolution engine (Injector.prototype._resolve,
  Injector.prototype.resolve, Injector._invokeFunction) is embedded as a
  fuel-indexed state-passing function over an explicit dependency graph;
  JavaScript exceptions become an explicit error result, and the graph
  mutations performed before a throw are kept (as they are in JavaScript).
  The signature parser (Injector._getArgumentsFromString and the regexes it
  uses) is embedded separately as executable functions over character lists.
-/

set_option autoImplicit false

namespace Bolus

/-- JavaScript values, restricted to the shapes the injector manipulates.
`undef` is JavaScript `undefined`; `vobj` is an opaque object identity. -/
inductive JsVal where
  | undef
  | vnull
  | vbool (b : Bool)
  | vnum (n : Int)
  | vstr (s : String)
  | vobj (tag : Nat)
deriving DecidableEq

/-- JavaScript truthiness of the modelled values (floats are out of scope,
so `NaN` does not occur). -/
def truthy : JsVal → Bool
  | .undef => false
  | .vnull => false
  | .vbool b => b
  | .vnum n => n != 0
  | .vstr s => s != ""
  | .vobj _ => true

/-- A provider function.  `inject` is its dependency-name list: the `$inject`
property read by `Injector._getArguments` (line 372), or equivalently what
the argument parser would return for its source text (the parser itself is
embedded separately below as `getArgumentsFromString`).  `isClass` is the
result of `IS_CLASS_REGEX.test(fn.toString())`.  `impl` abstracts the value
produced by calling the function (or constructing the class) on a positional
argument list. -/
structure FnVal where
  isClass : Bool
  inject : List String
  impl : List JsVal → JsVal

/-- One node of `this._graph` (lines 99-103 and 120-123).
`register` creates `\x7b factory: fn, dependencyNames: args \x7d` (no `value`
own-property); `registerValue` creates `\x7b value: value \x7d`.
`value = some v` models the presence of the `value` own-property, the test
performed by `node.hasOwnProperty("value")` on line 428 — the property can
hold any value, including `undefined`, which is `some JsVal.undef` here. -/
structure Node where
  factory : Option FnVal
  dependencyNames : List String
  value : Option JsVal

/-- `this._graph`: a JavaScript object literal used as a name → Node
dictionary (key order is insertion order, last write wins). -/
abbrev Graph := List (String × Node)

/-- The own-property part of the read `this._graph[name]`: the first (and,
as keys are unique, only) entry stored under `name`. -/
def graphGet : Graph → String → Option Node
  | [], _ => none
  | (k, nd) :: rest, name => if k = name then some nd else graphGet rest name

/-- The own-property names of `Object.prototype`.  The graph is a plain
object literal, so reading an unregistered name that collides with one of
these finds the inherited member — a function, or `Object.prototype` itself
for the `__proto__` accessor — which is truthy and carries neither a
`value` own-property nor a `dependencyNames` property. -/
def protoNames : List String :=
  ["constructor", "hasOwnProperty", "isPrototypeOf", "propertyIsEnumerable",
   "toLocaleString", "toString", "valueOf", "__defineGetter__",
   "__defineSetter__", "__lookupGetter__", "__lookupSetter__", "__proto__"]

/-- What the property read `this._graph[name]` can yield: an own node
(shadowing anything inherited), an inherited `Object.prototype` member, or
`undefined`. -/
inductive GraphRead where
  | own (node : Node)
  | proto
  | absent

/-- The full property read `this._graph[name]` (lines 334 and 420),
prototype chain included. -/
def graphRead (g : Graph) (name : String) : GraphRead :=
  match graphGet g name with
  | some nd => .own nd
  | none => if name ∈ protoNames then .proto else .absent

/-- Dictionary write `this._graph[name] = node` (overwrites in place).
The `__proto__` special case of JavaScript assignment — mutating the
object's prototype instead of creating an own key — is not modelled. -/
def graphSet : Graph → String → Node → Graph
  | [], name, nd => [(name, nd)]
  | (k, old) :: rest, name, nd =>
    if k = name then (k, nd) :: rest else (k, old) :: graphSet rest name nd

/-- The mutation `node.value = v` performed on line 440: the node object
fetched from the graph at `name` gets its `value` own-property set.  (During
dependency resolution nothing replaces the entry, so updating the graph at
`name` is the same as mutating the shared node object.) -/
def setNodeValue : Graph → String → JsVal → Graph
  | [], _, _ => []
  | (k, nd) :: rest, name, v =>
    if k = name then (k, { nd with value := some v }) :: rest
    else (k, nd) :: setNodeValue rest name v

/-- `Injector.prototype.register` (lines 94-103): parse/read the dependency
names and store a provider node; any existing node under `name` is
overwritten. -/
def register (g : Graph) (name : String) (fn : FnVal) : Graph :=
  graphSet g name ⟨some fn, fn.inject, none⟩

/-- `Injector.prototype.registerValue` (lines 118-123): store a node whose
`value` own-property is already present. -/
def registerValue (g : Graph) (name : String) (v : JsVal) : Graph :=
  graphSet g name ⟨none, [], some v⟩

/-- `Injector.prototype.isRegistered` (lines 333-335): `!!this._graph[name]`.
Registered nodes are object literals and inherited `Object.prototype`
members are functions (or an object), all truthy; only a genuine
`undefined` read yields false. -/
def isRegistered (g : Graph) (name : String) : Bool :=
  match graphRead g name with
  | .absent => false
  | _ => true

/-- The graph of a freshly constructed `Injector` (lines 77-81): the
container auto-registers itself under `"$injector"` as a value node;
`self` stands for the injector object. -/
def initGraph (self : JsVal) : Graph :=
  registerValue [] "$injector" self

/-- A registration operation on a container (the two registering entry
points; `registerPath`/`registerRequires`/`registerImports` reduce to these
at the boundary). -/
inductive RegOp where
  | reg (name : String) (fn : FnVal)
  | regVal (name : String) (v : JsVal)

/-- The name a registration writes to. -/
def regName : RegOp → String
  | .reg name _ => name
  | .regVal name _ => name

/-- Apply one registration. -/
def applyReg (g : Graph) : RegOp → Graph
  | .reg name fn => register g name fn
  | .regVal name v => registerValue g name v

/-- Line 415: `name[name.length - 1] === "?"`. -/
def lastIsQm (name : String) : Bool :=
  name.data.getLast? = some '?'

/-- Line 417: `name.substring(0, name.length - 1)`. -/
def stripQm (name : String) : String :=
  ⟨name.data.dropLast⟩

/-- Lines 413-418: the node name looked up in the graph — the trailing
optionality marker, if present, is stripped. -/
def stripName (name : String) : String :=
  if lastIsQm name then stripQm name else name

/-- Lines 293-296: if the name begins and ends with an underscore, strip
both.  For the one-character name `"_"` the source computes
`name.substring(1, 0)`, which JavaScript swaps to `substring(0, 1)`, leaving
the name unchanged. -/
def stripUnderscores (name : String) : String :=
  match name.data with
  | [] => name
  | c :: rest =>
    if c = '_' ∧ name.data.getLast? = some '_' then
      if rest.isEmpty then name else ⟨rest.dropLast⟩
    else name

/-- Line 291: `context ? [context] : []` (an empty string is falsy). -/
def ctxList : Option String → List String
  | some c => if c = "" then [] else [c]
  | none => []

/-- Property read `locals[name]` on a caller-supplied locals object. -/
def lookupLocal : List (String × JsVal) → String → Option JsVal
  | [], _ => none
  | (k, v) :: rest, name => if k = name then some v else lookupLocal rest name

/-- The exceptions the engine can raise, plus fuel exhaustion of the
embedding (the JavaScript recursion is unbounded; a real run that would
exhaust any fuel is one that does not terminate). -/
inductive ResolveErr where
  | depNotFound (chain : List String)
  | circular (chain : List String)
  | typeError
  | outOfFuel
deriving DecidableEq

/-- `Injector._invokeFunction` (lines 352-362).  Line 353 evaluates
`fn.toString()` before anything else, so an absent (`undefined`) provider
raises a TypeError there — the `else if (fn)` guard on line 358 is
unreachable for a falsy `fn`.  For a present provider, both the class branch
(`new` with bound arguments) and the plain-call branch
(`fn.apply(null, args)`) produce the value `fn.impl args` in this model. -/
def invokeFunction (fn : Option FnVal) (args : List JsVal) : Except ResolveErr JsVal :=
  match fn with
  | none => .error .typeError
  | some f => if f.isClass then .ok (f.impl args) else .ok (f.impl args)

/-- Result of a run of the resolution engine: the value or exception, the
graph after the run (mutations made before a throw persist, as in
JavaScript), and the ghost trace of node names whose factory was invoked
(in invocation order). -/
structure RunOut where
  res : Except ResolveErr (List JsVal)
  graph : Graph
  log : List String

/-- A pending engine call: `one name previousNames` is
`this._resolve(name, previousNames)` (result wrapped in a singleton list);
`many deps currentNames` is the `node.dependencyNames.map(...)` loop of
lines 435-437. -/
inductive RCall where
  | one (name : String) (previousNames : List String)
  | many (deps : List String) (currentNames : List String)

/-- `Injector.prototype._resolve` (lines 411-445) together with its
dependency-mapping loop, as a single fuel-indexed recursion.  Each embedded
call consumes one unit of fuel; for every terminating JavaScript run a large
enough fuel reproduces it exactly.

Branches of `one`, in source order:
 * optionality strip and graph lookup (lines 413-420);
 * missing node: optional lookups resolve to `undefined`, otherwise a
   DependencyNotFoundError carrying `previousNames` extended with the
   requested name (lines 421-424);
 * an unregistered name colliding with an inherited `Object.prototype`
   member: the member passes the `!node` guard (truthy) and the
   `hasOwnProperty("value")` test (no such own property), so after the
   cycle check the access `node.dependencyNames.map` throws a TypeError —
   even for an optional lookup (lines 420-435);
 * memoized node: return the cached value, no cycle check, no invocation
   (lines 428, 444);
 * cycle check on the raw (unstripped) requested name against
   `previousNames`, error chain `currentNames = previousNames ++ [name]`
   (lines 430-431);
 * recursive resolution of the dependency names with the extended chain,
   then factory invocation and memoization under the stripped name
   (lines 435-441). -/
def run : Nat → Graph → RCall → RunOut
  | 0, g, _ => ⟨.error .outOfFuel, g, []⟩
  | fuel + 1, g, .one name previousNames =>
    match graphRead g (stripName name) with
    | .absent =>
      if lastIsQm name then ⟨.ok [.undef], g, []⟩
      else ⟨.error (.depNotFound (previousNames ++ [name])), g, []⟩
    | .proto =>
      if name ∈ previousNames then
        ⟨.error (.circular (previousNames ++ [name])), g, []⟩
      else ⟨.error .typeError, g, []⟩
    | .own node =>
      match node.value with
      | some v => ⟨.ok [v], g, []⟩
      | none =>
        if name ∈ previousNames then
          ⟨.error (.circular (previousNames ++ [name])), g, []⟩
        else
          let out := run fuel g (.many node.dependencyNames (previousNames ++ [name]))
          match out.res with
          | .error e => ⟨.error e, out.graph, out.log⟩
          | .ok depVals =>
            match invokeFunction node.factory depVals with
            | .error e => ⟨.error e, out.graph, out.log⟩
            | .ok v =>
              ⟨.ok [v], setNodeValue out.graph (stripName name) v,
                out.log ++ [stripName name]⟩
  | _ + 1, g, .many [] _ => ⟨.ok [], g, []⟩
  | fuel + 1, g, .many (d :: rest) currentNames =>
    let hd := run fuel g (.one d currentNames)
    match hd.res with
    | .error e => ⟨.error e, hd.graph, hd.log⟩
    | .ok vs =>
      let tl := run fuel hd.graph (.many rest currentNames)
      match tl.res with
      | .error e => ⟨.error e, tl.graph, hd.log ++ tl.log⟩
      | .ok vs2 => ⟨.ok (vs ++ vs2), tl.graph, hd.log ++ tl.log⟩

/-- One step of the `names.map` loop of `Injector.prototype.resolve`
(lines 292-300): strip the underscore wrapping, then
`(locals && locals[name]) || this._resolve(name, previousNames)` — a truthy
local short-circuits; a falsy or absent one falls through to the engine. -/
def resolveArg (fuel : Nat) (g : Graph) (locals : Option (List (String × JsVal)))
    (previousNames : List String) (name : String) : RunOut :=
  let name := stripUnderscores name
  let localVal :=
    match locals with
    | some l => lookupLocal l name
    | none => none
  match localVal with
  | some v =>
    if truthy v then ⟨.ok [v], g, []⟩
    else run fuel g (.one name previousNames)
  | none => run fuel g (.one name previousNames)

/-- The whole `names.map` loop (lines 292-300), threading the graph and the
invocation trace left to right; a throw aborts the remaining names. -/
def resolveArgs (fuel : Nat) (g : Graph) (locals : Option (List (String × JsVal)))
    (previousNames : List String) : List String → RunOut
  | [] => ⟨.ok [], g, []⟩
  | n :: rest =>
    let hd := resolveArg fuel g locals previousNames n
    match hd.res with
    | .error e => ⟨.error e, hd.graph, hd.log⟩
    | .ok vs =>
      let tl := resolveArgs fuel hd.graph locals previousNames rest
      match tl.res with
      | .error e => ⟨.error e, tl.graph, hd.log ++ tl.log⟩
      | .ok vs2 => ⟨.ok (vs ++ vs2), tl.graph, hd.log ++ tl.log⟩

/-- `Injector.prototype.resolve` called with a single name (lines 281-288,
302-308): the name is wrapped in a one-element array and `dependencies[0]`
is returned. -/
def resolveSingle (fuel : Nat) (g : Graph) (name : String) (context : Option String) :
    (Except ResolveErr JsVal) × Graph × List String :=
  let out := resolveArgs fuel g none (ctxList context) [name]
  match out.res with
  | .error e => (.error e, out.graph, out.log)
  | .ok vs => (.ok (vs.headD .undef), out.graph, out.log)

/-- `Injector.prototype.resolve` called with an array of names. -/
def resolveList (fuel : Nat) (g : Graph) (names : List String) (context : Option String) :
    (Except ResolveErr (List JsVal)) × Graph × List String :=
  let out := resolveArgs fuel g none (ctxList context) names
  (out.res, out.graph, out.log)

/-- `Injector.prototype.resolve` called with a function (lines 275-280,
302-304): resolve the function's dependency names honoring `locals`, then
invoke the function itself with the resolved arguments and return its
result. -/
def resolveFn (fuel : Nat) (g : Graph) (fn : FnVal)
    (locals : Option (List (String × JsVal))) (context : Option String) :
    (Except ResolveErr JsVal) × Graph × List String :=
  let out := resolveArgs fuel g locals (ctxList context) fn.inject
  match out.res with
  | .error e => (.error e, out.graph, out.log)
  | .ok depVals =>
    match invokeFunction (some fn) depVals with
    | .error e => (.error e, out.graph, out.log)
    | .ok v => (.ok v, out.graph, out.log)

/-- One top-level `resolve(...)` request against a container. -/
inductive Request where
  | names (names : List String) (context : Option String)
  | fnForm (fn : FnVal) (locals : Option (List (String × JsVal))) (context : Option String)

/-- Run one request, keeping the graph and the invocation trace (the value
or exception goes back to the caller and does not affect later requests). -/
def runRequest (fuel : Nat) (g : Graph) : Request → Graph × List String
  | .names ns ctx =>
    let (_, g', log) := resolveList fuel g ns ctx
    (g', log)
  | .fnForm fn locals ctx =>
    let (_, g', log) := resolveFn fuel g fn locals ctx
    (g', log)

/-- Run a sequence of `resolve` calls against one container, concatenating
the factory-invocation traces. -/
def runRequests (fuel : Nat) (g : Graph) : List Request → Graph × List String
  | [] => (g, [])
  | r :: rest =>
    let (g1, log1) := runRequest fuel g r
    let (g2, log2) := runRequests fuel g1 rest
    (g2, log1 ++ log2)

/-- The memoized value stored at node `n`, if the node exists and its
`value` own-property is present. -/
def valueAt (g : Graph) (n : String) : Option JsVal :=
  (graphGet g n).bind Node.value

/-- The dependency-name list stored at node `n`, if the node exists. -/
def depsAt (g : Graph) (n : String) : Option (List String) :=
  (graphGet g n).map Node.dependencyNames

/-- The factory stored at node `n`, if the node exists. -/
def factAt (g : Graph) (n : String) : Option (Option FnVal) :=
  (graphGet g n).map Node.factory

/-- The dependency-name list of node `n` (empty if absent). -/
def depsList (g : Graph) (n : String) : List String :=
  (depsAt g n).getD []

/-- What any engine run guarantees about the graph and the invocation
trace: node structure (factory, dependency list, existence) is untouched,
memoized values are never overwritten or erased, every traced invocation is
of a node that was unmemoized before and is memoized after, and no node is
invoked twice. -/
structure RunFacts (g g' : Graph) (log : List String) : Prop where
  sigd : ∀ n, depsAt g' n = depsAt g n
  sigf : ∀ n, factAt g' n = factAt g n
  mono : ∀ n v, valueAt g n = some v → valueAt g' n = some v
  fresh : ∀ n, n ∈ log → valueAt g n = none ∧ (valueAt g' n).isSome = true
  nodup : log.Nodup

/-- The relation between consecutive raw names on a live resolution chain:
the earlier frame's node exists, is not yet memoized, and the later raw name
is literally one of the earlier node's dependency names. -/
structure LinkPair (g : Graph) (r r' : String) : Prop where
  nodeSome : (graphGet g (stripName r)).isSome = true
  unmemo : valueAt g (stripName r) = none
  isDep : r' ∈ depsList g (stripName r)

/-- A list of raw names that forms a live resolution chain in `g`. -/
def Linked (g : Graph) (l : List String) : Prop :=
  List.Chain' (LinkPair g) l

/-- The deepest frame of a live chain: the node of raw name `t` exists, is
not yet memoized, and `deps` is contained in its dependency names. -/
structure EndLink (g : Graph) (t : String) (deps : List String) : Prop where
  nodeSome : (graphGet g (stripName t)).isSome = true
  unmemo : valueAt g (stripName t) = none
  depsSub : deps ⊆ depsList g (stripName t)

/-- The chain-protection invariant of the engine: as long as a call sits
below a live resolution chain (`Linked`), the nodes of the raw names on that
chain stay unmemoized throughout the call, and a successful dependency loop
can never have resolved a dependency name that lies on the chain. -/
def ChainProt (fuel : Nat) (g : Graph) : RCall → Prop
  | .one name prev => ∀ c₀ T, prev = c₀ ++ T → Linked g (T ++ [name]) →
      ∀ r ∈ T, valueAt g (stripName r) = none →
        valueAt (run fuel g (.one name prev)).graph (stripName r) = none
  | .many deps cur => ∀ c₀ T t, cur = c₀ ++ T → T.getLast? = some t →
      Linked g T → EndLink g t deps →
      (∀ r ∈ T, valueAt g (stripName r) = none →
        valueAt (run fuel g (.many deps cur)).graph (stripName r) = none)
      ∧ (∀ vs, (run fuel g (.many deps cur)).res = .ok vs → ∀ d ∈ deps, d ∉ T)

/-- JavaScript `\s` for the ASCII range (the injector's regexes are applied
to source text; Unicode whitespace is out of scope). -/
def isWsChar (c : Char) : Bool :=
  c == ' ' || c == '\t' || c == '\n' || c == '\r' || c == '\x0b' || c == '\x0c'

/-- JavaScript `.` (no `s` flag): any character except a line terminator. -/
def isDotChar (c : Char) : Bool :=
  !(c == '\n' || c == '\r')

/-- `IS_CLASS_REGEX = /^\s*class\s+/` (line 42). -/
def isClassStr (l : List Char) : Bool :=
  match l.dropWhile isWsChar with
  | 'c' :: 'l' :: 'a' :: 's' :: 's' :: c :: _ => isWsChar c
  | _ => false

/-- The lazy `[\s\S]*?\)` tail of CONSTRUCTOR_REGEX: the shortest run of
characters up to and including the first `)`. -/
def upToCloseParen : List Char → Option (List Char)
  | [] => none
  | c :: rest => if c = ')' then some [')'] else (upToCloseParen rest).map (c :: ·)

/-- One anchored attempt of `CONSTRUCTOR_REGEX = /constructor\s*\([\s\S]*?\)/`
(line 51): the literal word, a maximal whitespace run (nothing in `\s`
matches `(`, so the greedy `\s*` is deterministic here), `(`, then the lazy
run through the first `)`. -/
def ctorAt (l : List Char) : Option (List Char) :=
  if "constructor".data.isPrefixOf l then
    let rest := l.drop 11
    let ws := rest.takeWhile isWsChar
    match rest.dropWhile isWsChar with
    | '(' :: after =>
      match upToCloseParen after with
      | some mid => some ("constructor".data ++ ws ++ '(' :: mid)
      | none => none
    | _ => none
  else none

/-- `fnStr.match(CONSTRUCTOR_REGEX)` (line 384): the leftmost match. -/
def constructorMatch : List Char → Option (List Char)
  | [] => none
  | c :: rest =>
    match ctorAt (c :: rest) with
    | some m => some m
    | none => constructorMatch rest

/-- The `(\s*[,)=])` group of CONVERT_OPTIONAL: a greedy whitespace run then
one of `,`, `)`, `=` (deterministic, as those are not whitespace); returns
the group text and the remainder. -/
def optCloseScan (l : List Char) : Option (List Char × List Char) :=
  let w := l.takeWhile isWsChar
  match l.dropWhile isWsChar with
  | c :: cs => if c = ',' ∨ c = ')' ∨ c = '=' then some (w ++ [c], cs) else none
  | [] => none

/-- The lazy `(.+?)(\s*[,)=])` tail of CONVERT_OPTIONAL: grow the first
group one (dot-matchable) character at a time, testing the closing group
after each step. -/
def optGroupScan (acc : List Char) : List Char → Option (List Char × List Char × List Char)
  | [] => none
  | c :: cs =>
    if isDotChar c then
      match optCloseScan cs with
      | some (g2, rem) => some (acc ++ [c], g2, rem)
      | none => optGroupScan (acc ++ [c]) cs
    else none

/-- The greedy `\s*` before `(.+?)`: try consuming `a` whitespace characters,
largest first, then the lazy tail; returns the replacement text
`$1 ++ "?" ++ $2` and the remainder after the match. -/
def optScanDown (rest : List Char) : Nat → Option (List Char × List Char)
  | 0 => (optGroupScan [] rest).map (fun p => (p.1 ++ '?' :: p.2.1, p.2.2))
  | a + 1 =>
    match optGroupScan [] (rest.drop (a + 1)) with
    | some p => some (p.1 ++ '?' :: p.2.1, p.2.2)
    | none => optScanDown rest a

/-- One anchored attempt of
`CONVERT_OPTIONAL = /\/\*\s*optional\s*\*\/\s*(.+?)(\s*[,)=])/ig` (line 14):
`/*`, optional whitespace, `optional` case-insensitively, optional
whitespace, `*/`, then the greedy/lazy tail.  Returns the replacement text
(`$1?$2`) and the remainder. -/
def matchOptAt (l : List Char) : Option (List Char × List Char) :=
  match l with
  | '/' :: '*' :: r1 =>
    let r2 := r1.dropWhile isWsChar
    if (r2.take 8).map Char.toLower = "optional".data then
      match (r2.drop 8).dropWhile isWsChar with
      | '*' :: '/' :: r4 => optScanDown r4 (r4.takeWhile isWsChar).length
      | _ => none
    else none
  | _ => none

/-- The global replace `fnStr.replace(CONVERT_OPTIONAL, "$1?$2")` (line 390),
scanning left to right and continuing after each match.  The fuel equals
the input length; every match consumes at least one character, so it never
runs out. -/
def convertOptionalGo : Nat → List Char → List Char
  | 0, l => l
  | _ + 1, [] => []
  | fuel + 1, c :: rest =>
    match matchOptAt (c :: rest) with
    | some (out, rem) => out ++ convertOptionalGo fuel rem
    | none => c :: convertOptionalGo fuel rest

/-- `fnStr.replace(CONVERT_OPTIONAL, "$1?$2")` (line 390). -/
def convertOptional (l : List Char) : List Char :=
  convertOptionalGo l.length l

/-- The lazy `[\s\S]*?\*\//` tail of the block-comment alternative: the
remainder after the first `*/`. -/
def findCommentClose : List Char → Option (List Char)
  | [] => none
  | c :: r => if c = '*' ∧ r.head? = some '/' then some (r.drop 1) else findCommentClose r

/-- One anchored attempt of
`STRIP_COMMENTS = /((\/\/.*$)|(\/\*[\s\S]*?\*\/))/g` (line 21): the `//`
alternative matches only when no line terminator follows (no `m` flag, so
`$` is end of input); otherwise the `/*...*/` alternative.  Returns the
remainder after the match (the match itself is deleted). -/
def matchCommentAt : List Char → Option (List Char)
  | c1 :: c2 :: rest =>
    if c1 = '/' ∧ c2 = '/' then
      if rest.dropWhile isDotChar = [] then some [] else none
    else if c1 = '/' ∧ c2 = '*' then findCommentClose rest
    else none
  | _ => none

/-- The global replace `fnStr.replace(STRIP_COMMENTS, '')` (line 393),
with the same fuel convention as `convertOptionalGo`. -/
def stripCommentsGo : Nat → List Char → List Char
  | 0, l => l
  | _ + 1, [] => []
  | fuel + 1, c :: rest =>
    match matchCommentAt (c :: rest) with
    | some rem => stripCommentsGo fuel rem
    | none => c :: stripCommentsGo fuel rest

/-- `fnStr.replace(STRIP_COMMENTS, '')` (line 393). -/
def stripComments (l : List Char) : List Char :=
  stripCommentsGo l.length l

/-- The lazy `\(([\s\S]*?)\)` group: the characters strictly before the
first `)`. -/
def beforeCloseParen : List Char → Option (List Char)
  | [] => none
  | c :: r => if c = ')' then some [] else (beforeCloseParen r).map (c :: ·)

/-- The lazy `([^)]*?)=>` tail of the arrow alternative of ARGUMENTS:
grow the group while testing for `=>` first; a `)` aborts. -/
def arrowScan (acc : List Char) : List Char → Option (List Char)
  | [] => none
  | c :: rest =>
    if c = '=' ∧ rest.head? = some '>' then some acc
    else if c = ')' then none
    else arrowScan (acc ++ [c]) rest

/-- One anchored attempt of
`ARGUMENTS = /(?:\(([\s\S]*?)\)|(?:async )?([^)]*?)=>)/` (line 28): the
parenthesized alternative first, then the arrow alternative with and
without the optional `async ` prefix.  Returns the captured group
(`$1` or `$2`). -/
def argMatchAt (l : List Char) : Option (List Char) :=
  let alt1 :=
    match l with
    | [] => none
    | c :: rest => if c = '(' then beforeCloseParen rest else none
  match alt1 with
  | some g => some g
  | none =>
    let withAsync :=
      if "async ".data.isPrefixOf l then arrowScan [] (l.drop 6) else none
    match withAsync with
    | some g => some g
    | none => arrowScan [] l

/-- `fnStr.match(ARGUMENTS)` (line 396): the leftmost match's group. -/
def argumentsMatch : List Char → Option (List Char)
  | [] => none
  | c :: rest =>
    match argMatchAt (c :: rest) with
    | some g => some g
    | none => argumentsMatch rest

/-- A separator for `ARGUMENT_NAMES = /([^\s,]+)/g` (line 35). -/
def isSepChar (c : Char) : Bool :=
  isWsChar c || c == ','

/-- `argumentList.match(ARGUMENT_NAMES) || []` (line 401): the maximal runs
of non-separator characters (`null` becomes the empty list). -/
def splitNamesGo (cur : List Char) : List Char → List (List Char)
  | [] => if cur.isEmpty then [] else [cur]
  | c :: rest =>
    if isSepChar c then
      if cur.isEmpty then splitNamesGo [] rest else cur :: splitNamesGo [] rest
    else splitNamesGo (cur ++ [c]) rest

/-- Lines 389-401 of `Injector._getArgumentsFromString`: optional-comment
conversion, comment stripping, the ARGUMENTS match (throwing when it fails),
then the argument-name split. -/
def parseArgList (fnStr : List Char) : Except Unit (List String) :=
  let s1 := convertOptional fnStr
  let s2 := stripComments s1
  match argumentsMatch s2 with
  | none => .error ()
  | some argList => .ok ((splitNamesGo [] argList).map List.asString)

/-- `Injector._getArgumentsFromString` (lines 382-402): for class text the
first constructor-like fragment replaces the input (an absent fragment
yields the empty dependency list at once); then the shared pipeline runs.
`.error ()` stands for the thrown
`Error("Unable to parse arguments from function string.")`. -/
def getArgumentsFromString (fnStr : List Char) : Except Unit (List String) :=
  if isClassStr fnStr then
    match constructorMatch fnStr with
    | none => .ok []
    | some m => parseArgList m
  else parseArgList fnStr

/-- A `)` occurs somewhere. -/
def hasCloseParen : List Char → Bool
  | [] => false
  | c :: r => if c = ')' then true else hasCloseParen r

/-- A parenthesized parameter list can be found: some `(` with a `)` after
it. -/
def hasParenPair : List Char → Bool
  | [] => false
  | c :: r => if c = '(' ∧ hasCloseParen r = true then true else hasParenPair r

/-- An arrow-function parameter can be found: `=>` occurs. -/
def hasArrow : List Char → Bool
  | [] => false
  | c :: r => if c = '=' ∧ r.head? = some '>' then true else hasArrow r

/-- The text the parsing pipeline runs on: for class text, the extracted
constructor fragment (the input itself if no fragment exists, a case the
pipeline never reaches). -/
def pipelineInput (fnStr : List Char) : List Char :=
  if isClassStr fnStr then (constructorMatch fnStr).getD fnStr else fnStr

theorem graphRead_own_of {g : Graph} {n : String} {nd : Node}
    (h : graphGet g n = some nd) : graphRead g n = .own nd := by
  simp [graphRead, h]

theorem graphGet_of_graphRead_own {g : Graph} {n : String} {nd : Node}
    (h : graphRead g n = .own nd) : graphGet g n = some nd := by
  cases hg : graphGet g n with
  | none => by_cases hp : n ∈ protoNames <;> simp [graphRead, hg, hp] at h
  | some nd2 =>
    have heq : nd2 = nd := by simpa [graphRead, hg] using h
    rw [heq]

theorem graphRead_absent_of {g : Graph} {n : String}
    (h : graphGet g n = none) (hp : n ∉ protoNames) : graphRead g n = .absent := by
  simp [graphRead, h, hp]

theorem graphRead_proto_of {g : Graph} {n : String}
    (h : graphGet g n = none) (hp : n ∈ protoNames) : graphRead g n = .proto := by
  simp [graphRead, h, hp]

theorem isRegistered_iff (g : Graph) (n : String) :
    isRegistered g n = true ↔ ((graphGet g n).isSome = true ∨ n ∈ protoNames) := by
  cases hg : graphGet g n with
  | some nd => simp [isRegistered, graphRead, hg]
  | none => by_cases hp : n ∈ protoNames <;> simp [isRegistered, graphRead, hg, hp]

theorem graphGet_isSome_eq_depsAt (g : Graph) (n : String) :
    (graphGet g n).isSome = (depsAt g n).isSome := by
  cases h : graphGet g n <;> simp [depsAt, h]

theorem graphGet_setNodeValue_self (g : Graph) (n : String) (v : JsVal) :
    graphGet (setNodeValue g n v) n
      = (graphGet g n).map (fun nd => { nd with value := some v }) := by
  induction g with
  | nil => rfl
  | cons p rest ih =>
    obtain ⟨k, nd⟩ := p
    by_cases h : k = n <;> simp [setNodeValue, graphGet, h, ih]

theorem graphGet_setNodeValue_ne (g : Graph) (n m : String) (v : JsVal) (h : m ≠ n) :
    graphGet (setNodeValue g n v) m = graphGet g m := by
  induction g with
  | nil => rfl
  | cons p rest ih =>
    obtain ⟨k, nd⟩ := p
    by_cases hk : k = n
    · subst hk
      simp [setNodeValue, graphGet, Ne.symm h]
    · by_cases hm : k = m
      · subst hm
        simp [setNodeValue, graphGet, hk]
      · simp [setNodeValue, graphGet, hk, hm, ih]

theorem valueAt_setNodeValue_self (g : Graph) (n : String) (v : JsVal)
    (h : (graphGet g n).isSome = true) :
    valueAt (setNodeValue g n v) n = some v := by
  rcases Option.isSome_iff_exists.mp h with ⟨nd, hnd⟩
  simp [valueAt, graphGet_setNodeValue_self, hnd]

theorem valueAt_setNodeValue_ne (g : Graph) (n m : String) (v : JsVal) (h : m ≠ n) :
    valueAt (setNodeValue g n v) m = valueAt g m := by
  simp [valueAt, graphGet_setNodeValue_ne g n m v h]

theorem depsAt_setNodeValue (g : Graph) (n m : String) (v : JsVal) :
    depsAt (setNodeValue g n v) m = depsAt g m := by
  by_cases h : m = n
  · subst h
    cases hg : graphGet g m <;> simp [depsAt, graphGet_setNodeValue_self, hg]
  · simp [depsAt, graphGet_setNodeValue_ne g n m v h]

theorem factAt_setNodeValue (g : Graph) (n m : String) (v : JsVal) :
    factAt (setNodeValue g n v) m = factAt g m := by
  by_cases h : m = n
  · subst h
    cases hg : graphGet g m <;> simp [factAt, graphGet_setNodeValue_self, hg]
  · simp [factAt, graphGet_setNodeValue_ne g n m v h]

theorem runFacts_id (g : Graph) : RunFacts g g [] :=
  ⟨fun _ => rfl, fun _ => rfl, fun _ _ h => h, fun n h => by simp at h, List.nodup_nil⟩

theorem runFacts_trans {g g1 g2 : Graph} {l1 l2 : List String}
    (h1 : RunFacts g g1 l1) (h2 : RunFacts g1 g2 l2) : RunFacts g g2 (l1 ++ l2) := by
  refine ⟨fun n => (h2.sigd n).trans (h1.sigd n), fun n => (h2.sigf n).trans (h1.sigf n),
    fun n v h => h2.mono n v (h1.mono n v h), ?_, ?_⟩
  · intro n hn
    rcases List.mem_append.mp hn with hn | hn
    · obtain ⟨hnone, hsome⟩ := h1.fresh n hn
      rcases Option.isSome_iff_exists.mp hsome with ⟨v, hv⟩
      exact ⟨hnone, by simp [h2.mono n v hv]⟩
    · obtain ⟨hnone, hsome⟩ := h2.fresh n hn
      refine ⟨?_, hsome⟩
      cases hg : valueAt g n with
      | none => rfl
      | some v => simp [h1.mono n v hg] at hnone
  · refine List.Nodup.append h1.nodup h2.nodup (List.disjoint_left.mpr ?_)
    intro n hn1 hn2
    obtain ⟨_, hsome⟩ := h1.fresh n hn1
    obtain ⟨hnone, _⟩ := h2.fresh n hn2
    simp [hnone] at hsome

theorem mem_of_getLast?_eq {α : Type} {l : List α} {a : α}
    (h : l.getLast? = some a) : a ∈ l := by
  obtain ⟨hne, rfl⟩ := List.mem_getLast?_eq_getLast (Option.mem_def.mpr h)
  exact List.getLast_mem hne

theorem linked_mem_conds {g : Graph} {T deps : List String} {t r : String}
    (hL : Linked g T) (hlast : T.getLast? = some t) (hend : EndLink g t deps)
    (hr : r ∈ T) :
    (graphGet g (stripName r)).isSome = true ∧ valueAt g (stripName r) = none := by
  induction T with
  | nil => simp at hr
  | cons a rest ih =>
    cases rest with
    | nil =>
      simp at hr hlast
      subst hr
      subst hlast
      exact ⟨hend.nodeSome, hend.unmemo⟩
    | cons a' rest' =>
      obtain ⟨hp, hL'⟩ := List.chain'_cons.mp hL
      rcases List.mem_cons.mp hr with hr' | hr'
      · subst hr'
        exact ⟨hp.nodeSome, hp.unmemo⟩
      · exact ih hL' (by rwa [List.getLast?_cons_cons] at hlast) hr'

theorem linked_succ {g : Graph} {l : List String} {r : String}
    (hL : Linked g l) (hr : r ∈ l.dropLast) :
    ∃ r', LinkPair g r r' ∧ r' ∈ l := by
  induction l with
  | nil => simp at hr
  | cons a rest ih =>
    cases rest with
    | nil => simp at hr
    | cons a' rest' =>
      obtain ⟨hp, hL'⟩ := List.chain'_cons.mp hL
      rcases List.mem_cons.mp (by simpa using hr) with hr' | hr'
      · subst hr'
        exact ⟨a', hp, by simp⟩
      · obtain ⟨r', hpr, hmem⟩ := ih hL' hr'
        exact ⟨r', hpr, List.mem_cons_of_mem _ hmem⟩

theorem linked_transport {g g' : Graph} {T : List String}
    (hsig : ∀ n, depsAt g' n = depsAt g n)
    (hprot : ∀ r ∈ T, valueAt g (stripName r) = none → valueAt g' (stripName r) = none)
    (hL : Linked g T) : Linked g' T := by
  induction T with
  | nil => exact List.chain'_nil
  | cons a rest ih =>
    cases rest with
    | nil => exact List.chain'_singleton _
    | cons a' rest' =>
      obtain ⟨hp, hL'⟩ := List.chain'_cons.mp hL
      refine List.chain'_cons.mpr ⟨⟨?_, ?_, ?_⟩, ?_⟩
      · rw [graphGet_isSome_eq_depsAt, hsig, ← graphGet_isSome_eq_depsAt]
        exact hp.nodeSome
      · exact hprot a (by simp) hp.unmemo
      · simpa only [depsList, hsig] using hp.isDep
      · exact ih (fun r hr hv => hprot r (List.mem_cons_of_mem _ hr) hv) hL'

theorem endLink_transport {g g' : Graph} {T deps deps' : List String} {t : String}
    (hsig : ∀ n, depsAt g' n = depsAt g n)
    (hprot : ∀ r ∈ T, valueAt g (stripName r) = none → valueAt g' (stripName r) = none)
    (ht : t ∈ T) (hsub : deps' ⊆ deps)
    (hend : EndLink g t deps) : EndLink g' t deps' := by
  refine ⟨?_, hprot t ht hend.unmemo, ?_⟩
  · rw [graphGet_isSome_eq_depsAt, hsig, ← graphGet_isSome_eq_depsAt]
    exact hend.nodeSome
  · simp only [depsList, hsig]
    exact fun x hx => hend.depsSub (hsub hx)

theorem linked_snoc {g : Graph} {T deps : List String} {t d : String}
    (hL : Linked g T) (hlast : T.getLast? = some t) (hend : EndLink g t deps)
    (hd : d ∈ deps) : Linked g (T ++ [d]) := by
  refine List.chain'_append.mpr ⟨hL, List.chain'_singleton _, ?_⟩
  intro x hx y hy
  simp only [List.head?_cons, Option.mem_def, Option.some.injEq] at hy
  subst hy
  have hx' : x = t := by
    rw [Option.mem_def, hlast] at hx
    exact Option.some_injective _ hx.symm
  subst hx'
  exact ⟨hend.nodeSome, hend.unmemo, hend.depsSub hd⟩

theorem invokeFunction_some (f : FnVal) (args : List JsVal) :
    invokeFunction (some f) args = .ok (f.impl args) := by
  simp only [invokeFunction]
  split <;> rfl

theorem run_many_cons (fuel : Nat) (g : Graph) (d : String) (rest cur : List String) :
    run (fuel + 1) g (.many (d :: rest) cur) =
      (let hd := run fuel g (.one d cur)
       match hd.res with
       | .error e => ⟨.error e, hd.graph, hd.log⟩
       | .ok vs =>
         let tl := run fuel hd.graph (.many rest cur)
         match tl.res with
         | .error e => ⟨.error e, tl.graph, hd.log ++ tl.log⟩
         | .ok vs2 => ⟨.ok (vs ++ vs2), tl.graph, hd.log ++ tl.log⟩) := rfl

theorem run_one_inChain {g : Graph} {name : String} {prev : List String} {node : Node}
    (fuel : Nat) (h : graphGet g (stripName name) = some node)
    (hv : node.value = none) (hmem : name ∈ prev) :
    run (fuel + 1) g (.one name prev) = ⟨.error (.circular (prev ++ [name])), g, []⟩ := by
  simp [run, graphRead_own_of h, hv, hmem]

/-- Faithfulness of the cycle check (lines 430-431): a raw name already on
the chain whose node exists and is not memoized can never resolve
successfully. -/
theorem run_inChain_err (fuel : Nat) (g : Graph) (name : String) (prev : List String)
    (hmem : name ∈ prev) (hex : (graphGet g (stripName name)).isSome = true)
    (hunc : valueAt g (stripName name) = none) :
    ∀ vs, (run fuel g (.one name prev)).res ≠ .ok vs := by
  cases fuel with
  | zero =>
    intro vs
    simp [run]
  | succ fuel =>
    obtain ⟨node, hnode⟩ := Option.isSome_iff_exists.mp hex
    have hv : node.value = none := by simpa [valueAt, hnode] using hunc
    intro vs
    rw [run_one_inChain fuel hnode hv hmem]
    simp

/-- Main invariant of the resolution engine: every run preserves node
structure and memoized values, invokes only previously-unmemoized factories,
each at most once, memoizing them; and it respects chain protection. -/
theorem run_main : ∀ (fuel : Nat) (g : Graph) (call : RCall),
    RunFacts g (run fuel g call).graph (run fuel g call).log ∧ ChainProt fuel g call := by
  intro fuel
  induction fuel with
  | zero =>
    intro g call
    refine ⟨runFacts_id g, ?_⟩
    cases call with
    | one name prev =>
      intro c₀ T hprev hL r hr hunc
      exact hunc
    | many deps cur =>
      intro c₀ T t hcur hlast hL hend
      refine ⟨fun r hr hunc => hunc, fun vs hvs => ?_⟩
      simp [run] at hvs
  | succ fuel IH =>
    intro g call
    cases call with
    | many deps cur =>
      cases deps with
      | nil =>
        refine ⟨runFacts_id g, ?_⟩
        intro c₀ T t hcur hlast hL hend
        exact ⟨fun r hr hunc => hunc, fun vs hvs d hd => by simp at hd⟩
      | cons d rest =>
        obtain ⟨hHf, hHp⟩ := IH g (.one d cur)
        rcases h1 : run fuel g (.one d cur) with ⟨res1, g1, l1⟩
        rw [h1] at hHf
        cases res1 with
        | error e =>
          have hrun : run (fuel + 1) g (.many (d :: rest) cur) = ⟨.error e, g1, l1⟩ := by
            simp only [run_many_cons, h1]
          refine ⟨by rw [hrun]; exact hHf, ?_⟩
          intro c₀ T t hcur hlast hL hend
          refine ⟨?_, ?_⟩
          · intro r hr hunc
            rw [hrun]
            have := hHp c₀ T hcur (linked_snoc hL hlast hend (List.mem_cons_self d rest)) r hr hunc
            rwa [h1] at this
          · intro vs hvs
            rw [hrun] at hvs
            exact absurd hvs (by simp)
        | ok vs1 =>
          obtain ⟨hTf, hTp⟩ := IH g1 (.many rest cur)
          rcases h2 : run fuel g1 (.many rest cur) with ⟨res2, g2, l2⟩
          rw [h2] at hTf
          have hg : (run (fuel + 1) g (.many (d :: rest) cur)).graph = g2 := by
            cases res2 <;> simp only [run_many_cons, h1, h2]
          have hl : (run (fuel + 1) g (.many (d :: rest) cur)).log = l1 ++ l2 := by
            cases res2 <;> simp only [run_many_cons, h1, h2]
          refine ⟨?_, ?_⟩
          · rw [hg, hl]
            exact runFacts_trans hHf hTf
          · intro c₀ T t hcur hlast hL hend
            have hLd : Linked g (T ++ [d]) :=
              linked_snoc hL hlast hend (List.mem_cons_self d rest)
            have hprot1 : ∀ r ∈ T, valueAt g (stripName r) = none →
                valueAt g1 (stripName r) = none := by
              intro r hr hunc
              have := hHp c₀ T hcur hLd r hr hunc
              rwa [h1] at this
            have htT : t ∈ T := mem_of_getLast?_eq hlast
            have hL1 : Linked g1 T := linked_transport hHf.sigd hprot1 hL
            have hend1 : EndLink g1 t rest :=
              endLink_transport hHf.sigd hprot1 htT (List.subset_cons_self d rest) hend
            have hprot2 : ∀ r ∈ T, valueAt g1 (stripName r) = none →
                valueAt g2 (stripName r) = none := by
              intro r hr hunc
              have := (hTp c₀ T t hcur hlast hL1 hend1).1 r hr hunc
              rwa [h2] at this
            refine ⟨?_, ?_⟩
            · intro r hr hunc
              rw [hg]
              exact hprot2 r hr (hprot1 r hr hunc)
            · intro vs hvs d' hd'
              rcases List.mem_cons.mp hd' with rfl | hd'
              · intro hdT
                obtain ⟨hex, hunc⟩ := linked_mem_conds hL hlast hend hdT
                have hdcur : d' ∈ cur := by
                  rw [hcur]
                  exact List.mem_append_right _ hdT
                exact run_inChain_err fuel g d' cur hdcur hex hunc vs1 (by rw [h1])
              · cases res2 with
                | error e =>
                  have hrun : run (fuel + 1) g (.many (d :: rest) cur)
                      = ⟨.error e, g2, l1 ++ l2⟩ := by
                    simp only [run_many_cons, h1, h2]
                  rw [hrun] at hvs
                  exact absurd hvs (by simp)
                | ok vs2 =>
                  exact (hTp c₀ T t hcur hlast hL1 hend1).2 vs2 (by rw [h2]) d' hd'
    | one name prev =>
      cases hread : graphRead g (stripName name) with
      | absent =>
        have hg : (run (fuel + 1) g (.one name prev)).graph = g := by
          cases hq : lastIsQm name <;> simp [run, hread, hq]
        have hl : (run (fuel + 1) g (.one name prev)).log = [] := by
          cases hq : lastIsQm name <;> simp [run, hread, hq]
        refine ⟨by rw [hg, hl]; exact runFacts_id g, ?_⟩
        intro c₀ T hprev hL r hr hunc
        rw [hg]
        exact hunc
      | proto =>
        have hg : (run (fuel + 1) g (.one name prev)).graph = g := by
          by_cases hmem : name ∈ prev <;> simp [run, hread, hmem]
        have hl : (run (fuel + 1) g (.one name prev)).log = [] := by
          by_cases hmem : name ∈ prev <;> simp [run, hread, hmem]
        refine ⟨by rw [hg, hl]; exact runFacts_id g, ?_⟩
        intro c₀ T hprev hL r hr hunc
        rw [hg]
        exact hunc
      | own node =>
        have hget : graphGet g (stripName name) = some node :=
          graphGet_of_graphRead_own hread
        rcases hval : node.value with _ | v
        · by_cases hmem : name ∈ prev
          · have hrun := run_one_inChain fuel hget hval hmem
            refine ⟨by rw [hrun]; exact runFacts_id g, ?_⟩
            intro c₀ T hprev hL r hr hunc
            rw [hrun]
            exact hunc
          · obtain ⟨hMf, hMp⟩ := IH g (.many node.dependencyNames (prev ++ [name]))
            rcases hM : run fuel g (.many node.dependencyNames (prev ++ [name]))
              with ⟨resM, gM, lM⟩
            rw [hM] at hMf
            have hexg : (graphGet g (stripName name)).isSome = true := by simp [hget]
            have huncg : valueAt g (stripName name) = none := by
              simp [valueAt, hget, hval]
            have hend0 : EndLink g name node.dependencyNames :=
              ⟨hexg, huncg, fun x hx => by simpa [depsList, depsAt, hget] using hx⟩
            have hlast0 : ([name] : List String).getLast? = some name := rfl
            have hL0 : Linked g [name] := List.chain'_singleton _
            have hprotM0 : valueAt gM (stripName name) = none := by
              have := (hMp prev [name] name (by simp) hlast0 hL0 hend0).1 name
                (List.mem_singleton_self name) huncg
              rwa [hM] at this
            cases resM with
            | error e =>
              have hrun : run (fuel + 1) g (.one name prev) = ⟨.error e, gM, lM⟩ := by
                simp only [run, hread, hval, if_neg hmem, hM]
              refine ⟨by rw [hrun]; exact hMf, ?_⟩
              intro c₀ T hprev hL r hr hunc
              rw [hrun]
              have hcur' : prev ++ [name] = c₀ ++ (T ++ [name]) := by
                rw [hprev, List.append_assoc]
              have := (hMp c₀ (T ++ [name]) name hcur' (List.getLast?_concat _) hL hend0).1
                r (List.mem_append_left _ hr) hunc
              rwa [hM] at this
            | ok depVals =>
              cases hfact : node.factory with
              | none =>
                have hrun : run (fuel + 1) g (.one name prev)
                    = ⟨.error .typeError, gM, lM⟩ := by
                  simp only [run, hread, hval, if_neg hmem, hM, hfact, invokeFunction]
                refine ⟨by rw [hrun]; exact hMf, ?_⟩
                intro c₀ T hprev hL r hr hunc
                rw [hrun]
                have hcur' : prev ++ [name] = c₀ ++ (T ++ [name]) := by
                  rw [hprev, List.append_assoc]
                have := (hMp c₀ (T ++ [name]) name hcur' (List.getLast?_concat _) hL hend0).1
                  r (List.mem_append_left _ hr) hunc
                rwa [hM] at this
              | some f =>
                have hrun : run (fuel + 1) g (.one name prev)
                    = ⟨.ok [f.impl depVals],
                       setNodeValue gM (stripName name) (f.impl depVals),
                       lM ++ [stripName name]⟩ := by
                  simp only [run, hread, hval, if_neg hmem, hM, hfact, invokeFunction_some]
                have hexM : (graphGet gM (stripName name)).isSome = true := by
                  rw [graphGet_isSome_eq_depsAt, hMf.sigd, ← graphGet_isSome_eq_depsAt]
                  exact hexg
                have hstep : RunFacts gM (setNodeValue gM (stripName name) (f.impl depVals))
                    [stripName name] := by
                  refine ⟨fun m => depsAt_setNodeValue _ _ _ _,
                    fun m => factAt_setNodeValue _ _ _ _, ?_, ?_, List.nodup_singleton _⟩
                  · intro m w hw
                    have hmn : m ≠ stripName name := by
                      intro heq
                      rw [heq, hprotM0] at hw
                      exact Option.noConfusion hw
                    rw [valueAt_setNodeValue_ne _ _ _ _ hmn]
                    exact hw
                  · intro m hm
                    rw [List.mem_singleton] at hm
                    subst hm
                    refine ⟨hprotM0, ?_⟩
                    rw [valueAt_setNodeValue_self _ _ _ hexM]
                    rfl
                refine ⟨by rw [hrun]; exact runFacts_trans hMf hstep, ?_⟩
                intro c₀ T hprev hL r hr hunc
                rw [hrun]
                have hcur' : prev ++ [name] = c₀ ++ (T ++ [name]) := by
                  rw [hprev, List.append_assoc]
                have hMP := hMp c₀ (T ++ [name]) name hcur' (List.getLast?_concat _) hL hend0
                have huncM : valueAt gM (stripName r) = none := by
                  have := hMP.1 r (List.mem_append_left _ hr) hunc
                  rwa [hM] at this
                by_cases hrn : stripName r = stripName name
                · exfalso
                  have hrdrop : r ∈ (T ++ [name]).dropLast := by
                    rw [List.dropLast_concat]
                    exact hr
                  obtain ⟨r', hpr, hr'mem⟩ := linked_succ hL hrdrop
                  have hr'dep : r' ∈ node.dependencyNames := by
                    have hdep := hpr.isDep
                    rw [hrn] at hdep
                    simpa [depsList, depsAt, hget] using hdep
                  exact (hMP.2 depVals (by rw [hM]) r' hr'dep) hr'mem
                · rw [valueAt_setNodeValue_ne _ _ _ _ hrn]
                  exact huncM
        · have hrun : run (fuel + 1) g (.one name prev) = ⟨.ok [v], g, []⟩ := by
            simp [run, hread, hval]
          refine ⟨by rw [hrun]; exact runFacts_id g, ?_⟩
          intro c₀ T hprev hL r hr hunc
          rw [hrun]
          exact hunc

theorem resolveArg_facts (fuel : Nat) (g : Graph) (locals : Option (List (String × JsVal)))
    (prev : List String) (name : String) :
    RunFacts g (resolveArg fuel g locals prev name).graph
      (resolveArg fuel g locals prev name).log := by
  cases locals with
  | none =>
    have h : resolveArg fuel g none prev name
        = run fuel g (.one (stripUnderscores name) prev) := rfl
    rw [h]
    exact (run_main fuel g (.one (stripUnderscores name) prev)).1
  | some l =>
    cases hv : lookupLocal l (stripUnderscores name) with
    | none =>
      have h : resolveArg fuel g (some l) prev name
          = run fuel g (.one (stripUnderscores name) prev) := by
        simp only [resolveArg, hv]
      rw [h]
      exact (run_main fuel g (.one (stripUnderscores name) prev)).1
    | some v =>
      cases ht : truthy v with
      | true =>
        have h : resolveArg fuel g (some l) prev name = ⟨.ok [v], g, []⟩ := by
          simp only [resolveArg, hv, ht, if_true]
        rw [h]
        exact runFacts_id g
      | false =>
        have h : resolveArg fuel g (some l) prev name
            = run fuel g (.one (stripUnderscores name) prev) := by
          simp only [resolveArg, hv, ht, Bool.false_eq_true, if_false]
        rw [h]
        exact (run_main fuel g (.one (stripUnderscores name) prev)).1

theorem resolveArgs_facts (fuel : Nat) (locals : Option (List (String × JsVal)))
    (prev : List String) : ∀ (names : List String) (g : Graph),
    RunFacts g (resolveArgs fuel g locals prev names).graph
      (resolveArgs fuel g locals prev names).log := by
  intro names
  induction names with
  | nil => exact fun g => runFacts_id g
  | cons n rest ih =>
    intro g
    have hf1 := resolveArg_facts fuel g locals prev n
    rcases h1 : resolveArg fuel g locals prev n with ⟨res1, g1, l1⟩
    rw [h1] at hf1
    cases res1 with
    | error e =>
      have hrun : resolveArgs fuel g locals prev (n :: rest) = ⟨.error e, g1, l1⟩ := by
        simp only [resolveArgs, h1]
      rw [hrun]
      exact hf1
    | ok vs =>
      have hf2 := ih g1
      rcases h2 : resolveArgs fuel g1 locals prev rest with ⟨res2, g2, l2⟩
      rw [h2] at hf2
      have hg : (resolveArgs fuel g locals prev (n :: rest)).graph = g2 := by
        cases res2 <;> simp only [resolveArgs, h1, h2]
      have hl : (resolveArgs fuel g locals prev (n :: rest)).log = l1 ++ l2 := by
        cases res2 <;> simp only [resolveArgs, h1, h2]
      rw [hg, hl]
      exact runFacts_trans hf1 hf2

theorem runRequest_facts (fuel : Nat) (g : Graph) (r : Request) :
    RunFacts g (runRequest fuel g r).1 (runRequest fuel g r).2 := by
  cases r with
  | names ns ctx =>
    have hf := resolveArgs_facts fuel none (ctxList ctx) ns g
    simpa only [runRequest, resolveList] using hf
  | fnForm fn locals ctx =>
    have hf := resolveArgs_facts fuel locals (ctxList ctx) fn.inject g
    rcases h1 : resolveArgs fuel g locals (ctxList ctx) fn.inject with ⟨res1, g1, l1⟩
    rw [h1] at hf
    cases res1 with
    | error e => simpa only [runRequest, resolveFn, h1] using hf
    | ok depVals =>
      cases hi : invokeFunction (some fn) depVals with
      | error e => simpa only [runRequest, resolveFn, h1, hi] using hf
      | ok v => simpa only [runRequest, resolveFn, h1, hi] using hf

theorem runRequests_facts (fuel : Nat) : ∀ (reqs : List Request) (g : Graph),
    RunFacts g (runRequests fuel g reqs).1 (runRequests fuel g reqs).2 := by
  intro reqs
  induction reqs with
  | nil => exact fun g => runFacts_id g
  | cons r rest ih =>
    intro g
    have hf1 := runRequest_facts fuel g r
    rcases h1 : runRequest fuel g r with ⟨g1, l1⟩
    rw [h1] at hf1
    have hf2 := ih g1
    rcases h2 : runRequests fuel g1 rest with ⟨g2, l2⟩
    rw [h2] at hf2
    have hrun : runRequests fuel g (r :: rest) = (g2, l1 ++ l2) := by
      simp only [runRequests, h1, h2]
    rw [hrun]
    exact runFacts_trans hf1 hf2

theorem graphGet_graphSet (g : Graph) (k : String) (nd : Node) (x : String) :
    graphGet (graphSet g k nd) x = if k = x then some nd else graphGet g x := by
  induction g with
  | nil => rfl
  | cons p rest ih =>
    obtain ⟨k0, old⟩ := p
    by_cases h0 : k0 = k
    · subst h0
      by_cases hx : k0 = x <;> simp [graphSet, graphGet, hx]
    · by_cases hx : k0 = x
      · subst hx
        have : ¬k = k0 := fun h => h0 h.symm
        simp [graphSet, graphGet, h0, this]
      · simp [graphSet, graphGet, h0, hx, ih]

theorem graphSet_graphSet (g : Graph) (k : String) (a b : Node) :
    graphSet (graphSet g k a) k b = graphSet g k b := by
  induction g with
  | nil => simp [graphSet]
  | cons p rest ih =>
    obtain ⟨k0, old⟩ := p
    by_cases h0 : k0 = k
    · subst h0
      simp [graphSet]
    · simp [graphSet, h0, ih]

theorem mem_keys_graphSet (g : Graph) (k : String) (nd : Node) (x : String) :
    x ∈ (graphSet g k nd).map Prod.fst ↔ x ∈ g.map Prod.fst ∨ x = k := by
  induction g with
  | nil => simp [graphSet]
  | cons p rest ih =>
    obtain ⟨k0, old⟩ := p
    by_cases h0 : k0 = k
    · subst h0
      constructor
      · intro h
        rcases (by simpa [graphSet] using h : x = k0 ∨ x ∈ rest.map Prod.fst) with h | h
        · exact Or.inr h
        · exact Or.inl (by simp [h])
      · intro h
        rcases h with h | h
        · rcases (by simpa using h : x = k0 ∨ x ∈ rest.map Prod.fst) with h | h
          · simp [graphSet, h]
          · simp [graphSet, h]
        · simp [graphSet, h]
    · simp [graphSet, h0, ih, or_assoc]

theorem graphSet_keys_nodup (g : Graph) (k : String) (nd : Node)
    (h : (g.map Prod.fst).Nodup) : ((graphSet g k nd).map Prod.fst).Nodup := by
  induction g with
  | nil => simp [graphSet]
  | cons p rest ih =>
    obtain ⟨k0, old⟩ := p
    simp only [List.map_cons, List.nodup_cons] at h
    by_cases h0 : k0 = k
    · subst h0
      simpa [graphSet] using h
    · simp only [graphSet, h0, if_false, List.map_cons, List.nodup_cons]
      refine ⟨?_, ih h.2⟩
      intro hmem
      rcases (mem_keys_graphSet rest k nd k0).mp hmem with hmem | hmem
      · exact h.1 hmem
      · exact h0 hmem

theorem isRegistered_graphSet (g : Graph) (k : String) (nd : Node) (x : String) :
    isRegistered (graphSet g k nd) x = true ↔ (x = k ∨ isRegistered g x = true) := by
  rw [isRegistered_iff, isRegistered_iff, graphGet_graphSet]
  by_cases h : k = x
  · subst h
    simp
  · have h' : ¬x = k := fun hx => h hx.symm
    simp only [h, if_false]
    tauto

theorem isRegistered_foldl (name : String) : ∀ (ops : List RegOp) (g : Graph),
    isRegistered (ops.foldl applyReg g) name = true
      ↔ (isRegistered g name = true ∨ name ∈ ops.map regName) := by
  intro ops
  induction ops with
  | nil => simp
  | cons op rest ih =>
    intro g
    have hstep : isRegistered (applyReg g op) name = true
        ↔ (name = regName op ∨ isRegistered g name = true) := by
      cases op with
      | reg n fn => exact isRegistered_graphSet g n _ name
      | regVal n v => exact isRegistered_graphSet g n _ name
    rw [List.foldl_cons, ih (applyReg g op), hstep]
    simp
    tauto

/-- C1: for every provider registered with register, its factory is invoked
at most once per container across any sequence of resolve calls (the
concatenated invocation trace of any request sequence, from any starting
graph, has no duplicate node name — regardless of the values the factories
return, including falsy or absent ones), and every resolution of an
already-memoized node returns the cached value with no graph change and no
factory invocation. -/
theorem c1_factory_invoked_at_most_once :
    (∀ (fuel : Nat) (g : Graph) (reqs : List Request),
      ((runRequests fuel g reqs).2).Nodup)
    ∧ (∀ (fuel : Nat) (g : Graph) (name : String) (prev : List String)
        (node : Node) (v : JsVal),
        graphGet g (stripName name) = some node → node.value = some v →
        run (fuel + 1) g (.one name prev) = ⟨.ok [v], g, []⟩) := by
  constructor
  · intro fuel g reqs
    exact (runRequests_facts fuel reqs g).nodup
  · intro fuel g name prev node v h1 h2
    simp [run, graphRead_own_of h1, h2]

/-- Witness for C1 at a concrete container: a provider resolved twice in a
row is invoked only once, and a cache hit returns the memoized value
untouched. -/
theorem c1_witness :
    ((runRequests 10
        (register (registerValue [] "a" (.vnum 1)) "b"
          ⟨false, ["a"], fun args => args.headD .undef⟩)
        [.names ["b"] none, .names ["b"] none]).2).Nodup
    ∧ run 1 (registerValue [] "a" (.vnum 1)) (.one "a" [])
        = ⟨.ok [.vnum 1], registerValue [] "a" (.vnum 1), []⟩ := by
  constructor
  · exact c1_factory_invoked_at_most_once.1 10 _ _
  · exact c1_factory_invoked_at_most_once.2 0 (registerValue [] "a" (.vnum 1)) "a" []
      ⟨none, [], some (.vnum 1)⟩ (.vnum 1) rfl rfl

/-- C2: with A registered needing B and B registered needing A (neither
memoized), resolve("A") fails with a CircularDependencyError whose chain is
exactly ["A", "B", "A"], for any factories and any sufficient fuel; the
graph is left untouched and no factory is invoked. -/
theorem c2_cycle_chain (fA fB : List JsVal → JsVal) (cA cB : Bool) (fuel : Nat)
    (h : 5 ≤ fuel) :
    resolveSingle fuel
        (register (register [] "A" ⟨cA, ["B"], fA⟩) "B" ⟨cB, ["A"], fB⟩) "A" none
      = (.error (.circular ["A", "B", "A"]),
         register (register [] "A" ⟨cA, ["B"], fA⟩) "B" ⟨cB, ["A"], fB⟩, []) := by
  obtain ⟨k, rfl⟩ : ∃ k, fuel = k + 5 := ⟨fuel - 5, by omega⟩
  rfl

/-- Witness for C2 at concrete factories and fuel. -/
theorem c2_witness :
    5 ≤ 5
    ∧ resolveSingle 5
        (register (register [] "A" ⟨false, ["B"], fun _ => JsVal.undef⟩) "B"
          ⟨false, ["A"], fun _ => JsVal.undef⟩) "A" none
      = (.error (.circular ["A", "B", "A"]),
         register (register [] "A" ⟨false, ["B"], fun _ => JsVal.undef⟩) "B"
           ⟨false, ["A"], fun _ => JsVal.undef⟩, []) :=
  ⟨Nat.le_refl 5,
    c2_cycle_chain (fun _ => JsVal.undef) (fun _ => JsVal.undef) false false 5 (Nat.le_refl 5)⟩

/-- Counterexample to C3: the graph is a plain object literal, so a name
for which no node has been registered can still find an inherited
`Object.prototype` member.  On the empty graph, resolving the unregistered
"toString" does not throw a DependencyNotFoundError but a TypeError (the
inherited function passes the `!node` guard and the `hasOwnProperty`
test, and `node.dependencyNames.map` dereferences undefined), and the
optional "toString?" raises the same TypeError instead of resolving to an
explicit absent result. -/
theorem c3_counterexample :
    graphGet [] (stripName "toString") = none
    ∧ run 10 [] (.one "toString" []) = ⟨.error .typeError, [], []⟩
    ∧ graphGet [] (stripName "toString?") = none
    ∧ run 10 [] (.one "toString?" []) = ⟨.error .typeError, [], []⟩
    ∧ ResolveErr.typeError ≠ .depNotFound ["toString"] :=
  ⟨rfl, rfl, rfl, rfl, by decide⟩

/-- C3 (amended): for every resolved name whose stripped form has no node
in the graph and does not collide with an inherited `Object.prototype`
member name — so the property read truly yields `undefined` — an optional
lookup (trailing "?") resolves to undefined and never raises, while a
required lookup fails with a DependencyNotFoundError whose chain is the
active chain extended by the requested name (so it ends in the missing
name); in both cases the graph is untouched and nothing is invoked.  An
unregistered name that does collide with an inherited member instead finds
that member, and resolution throws a TypeError at the dependency-list
access (or a CircularDependencyError first, when the raw name is already
on the chain), even when the lookup is optional. -/
theorem c3_missing_dependency (fuel : Nat) (g : Graph) (name : String)
    (prev : List String) (h : graphGet g (stripName name) = none) :
    (stripName name ∉ protoNames →
      (lastIsQm name = true →
        run (fuel + 1) g (.one name prev) = ⟨.ok [.undef], g, []⟩)
      ∧ (lastIsQm name = false →
        run (fuel + 1) g (.one name prev)
            = ⟨.error (.depNotFound (prev ++ [name])), g, []⟩
          ∧ (prev ++ [name]).getLast? = some name))
    ∧ (stripName name ∈ protoNames → name ∉ prev →
        run (fuel + 1) g (.one name prev) = ⟨.error .typeError, g, []⟩) := by
  constructor
  · intro hp
    constructor
    · intro hq
      simp [run, graphRead_absent_of h hp, hq]
    · intro hq
      exact ⟨by simp [run, graphRead_absent_of h hp, hq], List.getLast?_concat _⟩
  · intro hp hmem
    simp [run, graphRead_proto_of h hp, hmem]

/-- Witness for C3 (amended): resolving the unregistered "missing" throws
with chain ending in "missing"; the unregistered optional "x?" yields
undefined; the unregistered prototype-colliding "toString" throws a
TypeError. -/
theorem c3_witness :
    run 1 [] (.one "missing" []) = ⟨.error (.depNotFound ["missing"]), [], []⟩
    ∧ run 1 [] (.one "x?" []) = ⟨.ok [.undef], [], []⟩
    ∧ run 1 [] (.one "toString" []) = ⟨.error .typeError, [], []⟩ := by
  refine ⟨?_, ?_, ?_⟩
  · exact (((c3_missing_dependency 0 [] "missing" [] rfl).1 (by decide)).2 rfl).1
  · exact ((c3_missing_dependency 0 [] "x?" [] rfl).1 (by decide)).1 rfl
  · exact (c3_missing_dependency 0 [] "toString" [] rfl).2 (by decide) (by decide)

/-- Counterexample to C4: nested dependency names never see the locals.
With value node a = 1, provider b needing a (b returns a), and
resolve(fn needing b, {a: 10}), the nested resolution of "a" uses the
graph value 1 even though the locals carry the truthy 10 for "a" — the
claim predicts the result 10, the code yields 1. -/
theorem c4_counterexample :
    (resolveFn 10
        (register (registerValue [] "a" (.vnum 1)) "b"
          ⟨false, ["a"], fun args => args.headD .undef⟩)
        ⟨false, ["b"], fun args => args.headD .undef⟩
        (some [("a", .vnum 10)]) none).1 = .ok (.vnum 1)
    ∧ JsVal.vnum 1 ≠ JsVal.vnum 10 :=
  ⟨rfl, by decide⟩

/-- C4 (amended): the local-override step applies only to the top-level
parameter names of a resolve(fn, locals) call — a truthy locals entry for
the underscore-stripped top-level name is returned directly, bypassing the
graph entirely (graph unchanged, nothing invoked); names resolved
recursively as dependencies are handled by _resolve, which never consults
locals. -/
theorem c4_local_override_top_level_only (fuel : Nat) (g : Graph)
    (locals : List (String × JsVal)) (prev : List String) (name : String) (v : JsVal)
    (h1 : lookupLocal locals (stripUnderscores name) = some v)
    (h2 : truthy v = true) :
    resolveArg fuel g (some locals) prev name = ⟨.ok [v], g, []⟩ := by
  simp [resolveArg, h1, h2]

/-- Witness for C4 (amended) at a concrete truthy local. -/
theorem c4_witness :
    resolveArg 3 [] (some [("a", .vnum 5)]) [] "a" = ⟨.ok [.vnum 5], [], []⟩ :=
  c4_local_override_top_level_only 3 [] [("a", .vnum 5)] [] "a" (.vnum 5) rfl rfl

/-- C5: a falsy local is ignored and resolution falls through to the graph:
resolve(fn, {a: 5}) uses the override 5 for parameter a, while
resolve(fn, {a: 0}) resolves a from the registered node (value 7)
instead of using 0; in general any falsy local entry makes the per-name step
identical to a plain engine resolution. -/
theorem c5_falsy_local_ignored :
    ((resolveFn 10 (registerValue [] "a" (.vnum 7))
        ⟨false, ["a"], fun args => args.headD .undef⟩
        (some [("a", .vnum 5)]) none).1 = .ok (.vnum 5))
    ∧ ((resolveFn 10 (registerValue [] "a" (.vnum 7))
        ⟨false, ["a"], fun args => args.headD .undef⟩
        (some [("a", .vnum 0)]) none).1 = .ok (.vnum 7))
    ∧ (∀ (fuel : Nat) (g : Graph) (locals : List (String × JsVal))
        (prev : List String) (name : String) (v : JsVal),
        lookupLocal locals (stripUnderscores name) = some v → truthy v = false →
        resolveArg fuel g (some locals) prev name
          = run fuel g (.one (stripUnderscores name) prev)) := by
  refine ⟨rfl, rfl, ?_⟩
  intro fuel g locals prev name v h1 h2
  simp [resolveArg, h1, h2]

/-- Witness for C5 at a concrete falsy local. -/
theorem c5_witness :
    resolveArg 3 [] (some [("a", .vnum 0)]) [] "a" = run 3 [] (.one "a" []) :=
  c5_falsy_local_ignored.2.2 3 [] [("a", .vnum 0)] [] "a" (.vnum 0) rfl rfl

/-- Counterexample to C6: cycle detection compares the raw name, not the
stripped one.  With provider A depending on "A?", the stripped name "A" is
already on the chain when "A?" is resolved, yet resolution proceeds one
level deeper and only then fails, with chain ["A", "A?", "A?"] — not the
chain ["A", "A?"] the claim requires — and the error chain's stripped names
repeat. -/
theorem c6_counterexample :
    run 10 (register [] "A" ⟨false, ["A?"], fun _ => JsVal.undef⟩) (.one "A" [])
      = ⟨.error (.circular ["A", "A?", "A?"]),
         register [] "A" ⟨false, ["A?"], fun _ => JsVal.undef⟩, []⟩
    ∧ (["A", "A?", "A?"] : List String) ≠ ["A", "A?"]
    ∧ (["A", "A?", "A?"].map stripName : List String) = ["A", "A", "A"] :=
  ⟨rfl, by decide, by decide⟩

/-- C6 (amended): cycle detection compares the raw (unstripped) name:
whenever the requested raw name is already present in the active chain and
its (stripped) node exists unmemoized, resolution fails right there with a
CircularDependencyError carrying the chain extended by the raw name — so a
raw name never occurs twice in an active chain, while a stripped name can
(once bare and once with the "?" marker), delaying detection by one level. -/
theorem c6_cycle_check_raw_name (fuel : Nat) (g : Graph) (name : String)
    (prev : List String) (node : Node) (hmem : name ∈ prev)
    (h : graphGet g (stripName name) = some node) (hv : node.value = none) :
    run (fuel + 1) g (.one name prev) = ⟨.error (.circular (prev ++ [name])), g, []⟩ :=
  run_one_inChain fuel h hv hmem

/-- Witness for C6 (amended) at a concrete chain. -/
theorem c6_witness :
    run 1 (register [] "A" ⟨false, [], fun _ => JsVal.undef⟩) (.one "A" ["A"])
      = ⟨.error (.circular ["A", "A"]),
         register [] "A" ⟨false, [], fun _ => JsVal.undef⟩, []⟩ :=
  c6_cycle_check_raw_name 0 _ "A" ["A"] ⟨some ⟨false, [], fun _ => JsVal.undef⟩, [], none⟩
    (by decide) rfl rfl

/-- C7 (against the code as written): invoking with an absent provider is
not a no-op — line 353 evaluates fn.toString() on the absent provider and
throws a TypeError, so no absent result is produced. -/
theorem c7_invoke_absent_provider_throws :
    (∀ (args : List JsVal), invokeFunction none args = .error .typeError)
    ∧ invokeFunction none [] ≠ .ok .undef :=
  ⟨fun _ => rfl, fun h => Except.noConfusion h⟩

/-- C8: registering under an already-used name overwrites the prior node
with no error: registering f then g under one name yields the same graph as
registering g alone, so every subsequent resolve uses g exclusively; and
names stay unique per container (writes preserve key uniqueness). -/
theorem c8_reregister_overwrites (g : Graph) (name : String) (f1 f2 : FnVal) :
    register (register g name f1) name f2 = register g name f2
    ∧ (∀ (fuel : Nat) (call : RCall),
        run fuel (register (register g name f1) name f2) call
          = run fuel (register g name f2) call)
    ∧ (∀ (nd : Node), (g.map Prod.fst).Nodup →
        ((graphSet g name nd).map Prod.fst).Nodup) := by
  refine ⟨graphSet_graphSet g name _ _, ?_, ?_⟩
  · intro fuel call
    rw [show register (register g name f1) name f2 = register g name f2 from
      graphSet_graphSet g name _ _]
  · intro nd h
    exact graphSet_keys_nodup g name nd h

/-- Witness for C8 at a concrete double registration. -/
theorem c8_witness :
    register (register [] "n" ⟨false, [], fun _ => JsVal.vnum 1⟩) "n"
        ⟨false, [], fun _ => JsVal.vnum 2⟩
      = register [] "n" ⟨false, [], fun _ => JsVal.vnum 2⟩
    ∧ ((graphSet [] "n" ⟨none, [], some (.vnum 2)⟩).map Prod.fst).Nodup := by
  constructor
  · exact (c8_reregister_overwrites [] "n" ⟨false, [], fun _ => JsVal.vnum 1⟩
      ⟨false, [], fun _ => JsVal.vnum 2⟩).1
  · exact (c8_reregister_overwrites [] "n" ⟨false, [], fun _ => JsVal.vnum 1⟩
      ⟨false, [], fun _ => JsVal.vnum 2⟩).2.2 ⟨none, [], some (.vnum 2)⟩ (by simp)

/-- Counterexample to C9: on a fresh container, `!!this._graph[name]`
reports the never-registered "toString" as registered, because the graph
object inherits `Object.prototype.toString`. -/
theorem c9_counterexample :
    isRegistered (initGraph (.vobj 0)) "toString" = true
    ∧ graphGet (initGraph (.vobj 0)) "toString" = none
    ∧ "toString" ≠ "$injector" :=
  ⟨rfl, rfl, by decide⟩

/-- C9 (amended): after any sequence of registrations on a fresh container
(none of them writing the special key "__proto__", whose JavaScript
assignment mutates the prototype instead of storing a node),
isRegistered(name) is true exactly when a node was registered under that
very string — the auto-registered "$injector" or one of the registered
names — or when the name collides with an inherited `Object.prototype`
member, which the truthiness test reports as registered even though no
node exists; there is no underscore or optionality normalization and no
other names are reported. -/
theorem c9_isRegistered_exact (self : JsVal) (ops : List RegOp) (name : String)
    (_hp : "__proto__" ∉ ops.map regName) :
    isRegistered (ops.foldl applyReg (initGraph self)) name = true
      ↔ (name = "$injector" ∨ name ∈ ops.map regName ∨ name ∈ protoNames) := by
  rw [isRegistered_foldl name ops (initGraph self)]
  have hinit : isRegistered (initGraph self) name = true
      ↔ (name = "$injector" ∨ name ∈ protoNames) := by
    rw [isRegistered_iff]
    simp [initGraph, registerValue, graphSet, graphGet]
    constructor
    · rintro (h | h)
      · exact Or.inl h.symm
      · exact Or.inr h
    · rintro (h | h)
      · exact Or.inl h.symm
      · exact Or.inr h
  rw [hinit]
  tauto

/-- Witness for C9 (amended): the auto-registered "$injector", a
registered name, and the prototype-colliding "toString" are all reported
registered on a container with one registration. -/
theorem c9_witness :
    isRegistered (([RegOp.regVal "a" (.vnum 1)]).foldl applyReg (initGraph (.vobj 0)))
        "$injector" = true
    ∧ isRegistered (([RegOp.regVal "a" (.vnum 1)]).foldl applyReg (initGraph (.vobj 0)))
        "a" = true
    ∧ isRegistered (([RegOp.regVal "a" (.vnum 1)]).foldl applyReg (initGraph (.vobj 0)))
        "toString" = true := by
  refine ⟨?_, ?_, ?_⟩
  · exact (c9_isRegistered_exact (.vobj 0) [RegOp.regVal "a" (.vnum 1)] "$injector"
      (by decide)).mpr (Or.inl rfl)
  · exact (c9_isRegistered_exact (.vobj 0) [RegOp.regVal "a" (.vnum 1)] "a"
      (by decide)).mpr (Or.inr (Or.inl (by decide)))
  · exact (c9_isRegistered_exact (.vobj 0) [RegOp.regVal "a" (.vnum 1)] "toString"
      (by decide)).mpr (Or.inr (Or.inr (by decide)))

theorem beforeCloseParen_none_iff : ∀ (l : List Char),
    beforeCloseParen l = none ↔ hasCloseParen l = false := by
  intro l
  induction l with
  | nil => simp [beforeCloseParen, hasCloseParen]
  | cons c r ih =>
    by_cases h : c = ')' <;> simp [beforeCloseParen, hasCloseParen, h, ih]

theorem arrowScan_some_arrow : ∀ (l : List Char) (acc g : List Char),
    arrowScan acc l = some g → hasArrow l = true := by
  intro l
  induction l with
  | nil =>
    intro acc g h
    simp [arrowScan] at h
  | cons c r ih =>
    intro acc g h
    by_cases h1 : c = '=' ∧ r.head? = some '>'
    · simp [hasArrow, h1]
    · rw [arrowScan, if_neg h1] at h
      by_cases h2 : c = ')'
      · rw [if_pos h2] at h
        exact Option.noConfusion h
      · rw [if_neg h2] at h
        simp [hasArrow, h1, ih _ _ h]

theorem arrowScan_none_of_no_arrow (l acc : List Char) (h : hasArrow l = false) :
    arrowScan acc l = none := by
  cases hs : arrowScan acc l with
  | none => rfl
  | some g => rw [arrowScan_some_arrow l acc g hs] at h; exact Bool.noConfusion h

theorem hasArrow_drop : ∀ (n : Nat) (l : List Char),
    hasArrow (l.drop n) = true → hasArrow l = true := by
  intro n
  induction n with
  | zero => intro l h; exact h
  | succ n ih =>
    intro l h
    cases l with
    | nil => simpa using h
    | cons c r =>
      rw [List.drop_succ_cons] at h
      have := ih r h
      by_cases h1 : c = '=' ∧ r.head? = some '>' <;> simp [hasArrow, h1, this]

theorem hasArrow_cons_false {c : Char} {r : List Char} (h : hasArrow (c :: r) = false) :
    ¬(c = '=' ∧ r.head? = some '>') ∧ hasArrow r = false := by
  by_cases h1 : c = '=' ∧ r.head? = some '>'
  · rw [hasArrow, if_pos h1] at h
    exact Bool.noConfusion h
  · rw [hasArrow, if_neg h1] at h
    exact ⟨h1, h⟩

theorem argMatchAt_cons_none_parts {c : Char} {r : List Char}
    (h : argMatchAt (c :: r) = none) :
    (c = '(' → beforeCloseParen r = none) ∧ arrowScan [] (c :: r) = none := by
  simp only [argMatchAt] at h
  constructor
  · intro hc
    cases hb : beforeCloseParen r with
    | none => rfl
    | some g1 =>
      have halt : (if c = '(' then beforeCloseParen r else none) = some g1 := by
        rw [if_pos hc, hb]
      rw [halt] at h
      exact absurd h (by simp)
  · cases halt : (if c = '(' then beforeCloseParen r else none) with
    | some g1 =>
      rw [halt] at h
      exact absurd h (by simp)
    | none =>
      rw [halt] at h
      cases hasy : (if "async ".data.isPrefixOf (c :: r)
          then arrowScan [] ((c :: r).drop 6) else none) with
      | some g2 =>
        rw [hasy] at h
        exact absurd h (by simp)
      | none =>
        rw [hasy] at h
        exact h

theorem argMatchAt_cons_eq_none {c : Char} {r : List Char}
    (h1 : (if c = '(' then beforeCloseParen r else none) = none)
    (h2 : (if "async ".data.isPrefixOf (c :: r)
        then arrowScan [] ((c :: r).drop 6) else none) = none)
    (h3 : arrowScan [] (c :: r) = none) :
    argMatchAt (c :: r) = none := by
  simp only [argMatchAt]
  rw [h1, h2, h3]

theorem argumentsMatch_none_iff : ∀ (l : List Char),
    argumentsMatch l = none ↔ (hasParenPair l = false ∧ hasArrow l = false) := by
  intro l
  induction l with
  | nil => simp [argumentsMatch, hasParenPair, hasArrow]
  | cons c r ih =>
    constructor
    · intro h
      have hA : argMatchAt (c :: r) = none := by
        cases hm : argMatchAt (c :: r) with
        | none => rfl
        | some g => rw [argumentsMatch, hm] at h; exact Option.noConfusion h
      have hR : argumentsMatch r = none := by
        rwa [argumentsMatch, hA] at h
      obtain ⟨hp, ha⟩ := ih.mp hR
      obtain ⟨hparen, hfinal⟩ := argMatchAt_cons_none_parts hA
      have harr : hasArrow (c :: r) = false := by
        by_cases h1 : c = '=' ∧ r.head? = some '>'
        · exfalso
          rw [arrowScan, if_pos h1] at hfinal
          exact Option.noConfusion hfinal
        · rw [hasArrow, if_neg h1]
          exact ha
      refine ⟨?_, harr⟩
      by_cases h1 : c = '(' ∧ hasCloseParen r = true
      · exfalso
        have hbcp := hparen h1.1
        rw [beforeCloseParen_none_iff r] at hbcp
        rw [hbcp] at h1
        exact Bool.noConfusion h1.2
      · rw [hasParenPair, if_neg h1]
        exact hp
    · rintro ⟨hp, ha⟩
      have hpr : hasParenPair r = false := by
        by_cases h1 : c = '(' ∧ hasCloseParen r = true
        · rw [hasParenPair, if_pos h1] at hp
          exact Bool.noConfusion hp
        · rwa [hasParenPair, if_neg h1] at hp
      have har : hasArrow r = false := (hasArrow_cons_false ha).2
      have hR : argumentsMatch r = none := ih.mpr ⟨hpr, har⟩
      have halt1 : (if c = '(' then beforeCloseParen r else none) = none := by
        by_cases hc : c = '('
        · rw [if_pos hc, beforeCloseParen_none_iff r]
          cases hcpv : hasCloseParen r with
          | false => rfl
          | true =>
            exfalso
            rw [hasParenPair, if_pos ⟨hc, hcpv⟩] at hp
            exact Bool.noConfusion hp
        · rw [if_neg hc]
      have hdrop : hasArrow ((c :: r).drop 6) = false := by
        cases hd : hasArrow ((c :: r).drop 6) with
        | false => rfl
        | true => rw [hasArrow_drop 6 (c :: r) hd] at ha; exact Bool.noConfusion ha
      have hasy : (if "async ".data.isPrefixOf (c :: r)
          then arrowScan [] ((c :: r).drop 6) else none) = none := by
        by_cases hpre : "async ".data.isPrefixOf (c :: r)
        · rw [if_pos hpre]
          exact arrowScan_none_of_no_arrow _ _ hdrop
        · rw [if_neg hpre]
      have hA : argMatchAt (c :: r) = none :=
        argMatchAt_cons_eq_none halt1 hasy (arrowScan_none_of_no_arrow _ _ ha)
      simp only [argumentsMatch, hA, hR]

/-- Counterexample to C10: the parse-failure error is not confined to
non-class text.  For the valid class source
`class A \x7b constructor(\n// x)\n) \x7b\x7d \x7d` — whose parameter list is
empty and whose first `)` sits inside a line comment — the extracted
constructor fragment is `constructor(\n// x)`, comment stripping then eats
its closing parenthesis, and the ARGUMENTS match fails: the function throws
even though the text is a class. -/
theorem c10_counterexample :
    isClassStr ("class A \x7b constructor(\n// x)\n) \x7b\x7d \x7d".data) = true
    ∧ getArgumentsFromString ("class A \x7b constructor(\n// x)\n) \x7b\x7d \x7d".data)
        = .error () :=
  ⟨rfl, rfl⟩

/-- C10 (amended): class text with no constructor-like fragment parses to
the empty dependency list rather than failing; in every other case the
parse-failure error is raised exactly when, in the processed text (the
extracted constructor fragment for class text, the input otherwise, after
optional-comment conversion and comment stripping), neither a parenthesized
parameter list nor an arrow-function parameter can be found — which can
happen even for class text, when a comment swallows the extracted
fragment's closing parenthesis. -/
theorem c10_parse_failure_exactly_when_no_list (s : List Char) :
    (isClassStr s = true → constructorMatch s = none →
      getArgumentsFromString s = .ok [])
    ∧ (¬(isClassStr s = true ∧ constructorMatch s = none) →
      (getArgumentsFromString s = .error () ↔
        hasParenPair (stripComments (convertOptional (pipelineInput s))) = false
        ∧ hasArrow (stripComments (convertOptional (pipelineInput s))) = false)) := by
  constructor
  · intro h1 h2
    simp [getArgumentsFromString, h1, h2]
  · intro hnot
    have hmain : ∀ (t : List Char), parseArgList t = .error () ↔
        (hasParenPair (stripComments (convertOptional t)) = false
          ∧ hasArrow (stripComments (convertOptional t)) = false) := by
      intro t
      rw [← argumentsMatch_none_iff]
      simp only [parseArgList]
      cases h : argumentsMatch (stripComments (convertOptional t)) <;> simp [h]
    cases h1 : isClassStr s with
    | true =>
      cases h2 : constructorMatch s with
      | none => exact absurd ⟨h1, h2⟩ hnot
      | some mtext =>
        have hrw : getArgumentsFromString s = parseArgList mtext := by
          simp [getArgumentsFromString, h1, h2]
        have hpi : pipelineInput s = mtext := by
          simp [pipelineInput, h1, h2]
        rw [hrw, hpi]
        exact hmain mtext
    | false =>
      have hrw : getArgumentsFromString s = parseArgList s := by
        simp [getArgumentsFromString, h1]
      have hpi : pipelineInput s = s := by
        simp [pipelineInput, h1]
      rw [hrw, hpi]
      exact hmain s

/-- Witness for C10 (amended): a constructor-less class parses to the empty
list; plain text with no parameter list at all raises the parse error. -/
theorem c10_witness :
    getArgumentsFromString ("class A \x7b \x7d".data) = .ok []
    ∧ getArgumentsFromString ("nope".data) = .error () := by
  constructor
  · exact (c10_parse_failure_exactly_when_no_list ("class A \x7b \x7d".data)).1 rfl rfl
  · exact ((c10_parse_failure_exactly_when_no_list ("nope".data)).2
      (by decide)).mpr ⟨rfl, rfl⟩

end Bolus
